import Mathlib

/-!
Shallow embedding of the point-cloud-tiles-analyzer sources
(`src/analyzer.rs`, `src/progress.rs`) and proofs about the claims of the
specification.  Rust `f64` arithmetic is modelled over `ℚ` where the source
only uses field operations and rounding on exactly representable values
(linear histogram, progress tracker), and over `ℝ` where the source uses
transcendental functions (`log2`, `powf` in the logarithmic histogram).
Rust `usize` values are modelled as `ℕ`.
-/

/-- Model of Rust `f64::round` followed by an `as usize` cast, for the
non-negative rational values appearing in `lin_histogram`: round half away
from zero, then truncate to a non-negative integer. -/
def rustRoundQ (x : ℚ) : ℕ := (⌊x + 1/2⌋).toNat

/-- Model of Rust `slice::partition_point` from `analyzer.rs` (lines 45-46,
72-73).  For a slice that is partitioned with respect to `p` (all claims
supply `counts` sorted ascending and use monotone predicates `c < bound`),
`partition_point` returns the number of leading elements satisfying `p`. -/
def partitionPoint (l : List ℕ) (p : ℕ → Bool) : ℕ := (l.takeWhile p).length

/-- `HistogramBucket` from `analyzer.rs` lines 86-101: an element count and a
half-open range `[start, stop)` (the Rust field `range : Range<usize>` is
flattened into `start`/`stop` because `end` is a Lean keyword). -/
structure HistogramBucket where
  count : ℕ
  start : ℕ
  stop : ℕ
deriving DecidableEq

/-- `HistogramConfig` from `analyzer.rs` lines 21-24. -/
inductive HistogramConfig where
  | Logarithmic (buckets : ℕ)
  | Linear (buckets : ℕ)
deriving DecidableEq

/-- The bucket boundary formula of `lin_histogram` (`analyzer.rs` lines
67-70): `(max_points as f64 * (j as f64 / num_buckets as f64)).round() as
usize`, evaluated at `j = bucket_index` for the start and `j = bucket_index +
1` for the end. -/
def lin_bucket_bound (max_points num_buckets j : ℕ) : ℕ :=
  rustRoundQ ((max_points : ℚ) * ((j : ℚ) / (num_buckets : ℚ)))

/-- `lin_histogram` from `analyzer.rs` lines 58-83. -/
def lin_histogram (counts : List ℕ) (num_buckets : ℕ) : List HistogramBucket :=
  match counts.getLast? with
  | none => []
  | some last_count =>
    let max_points := last_count + 1
    (List.range num_buckets).map (fun bucket_index =>
      let bucket_start := lin_bucket_bound max_points num_buckets bucket_index
      let bucket_end := lin_bucket_bound max_points num_buckets (bucket_index + 1)
      let first_match_index := partitionPoint counts (fun c => decide (c < bucket_start))
      let last_match_index := partitionPoint counts (fun c => decide (c < bucket_end))
      { count := last_match_index - first_match_index
        start := bucket_start
        stop := bucket_end })

/-- Model of Rust `f64::round` followed by `as usize` over `ℝ`, used for the
logarithmic histogram whose boundary values are transcendental. -/
noncomputable def rustRoundR (x : ℝ) : ℕ := (⌊x + 1/2⌋).toNat

/-- The bucket boundary formula of `log_histogram` (`analyzer.rs` lines
38-43): `2.0_f64.powf(log_max_points * (j as f64 / num_buckets as f64))
.round() as usize` where `log_max_points = (1.0 + max_points as f64).log2()`,
evaluated at `j = bucket_index` for the start and `j = bucket_index + 1` for
the end. -/
noncomputable def log_bucket_bound (max_points num_buckets j : ℕ) : ℕ :=
  rustRoundR ((2 : ℝ) ^ (Real.logb 2 (1 + (max_points : ℝ)) * ((j : ℝ) / (num_buckets : ℝ))))

/-- `log_histogram` from `analyzer.rs` lines 26-56. -/
noncomputable def log_histogram (counts : List ℕ) (num_buckets : ℕ) : List HistogramBucket :=
  match counts.getLast? with
  | none => []
  | some max_points =>
    (List.range num_buckets).map (fun bucket_index =>
      let bucket_start := log_bucket_bound max_points num_buckets bucket_index
      let bucket_end := log_bucket_bound max_points num_buckets (bucket_index + 1)
      let first_match_index := partitionPoint counts (fun c => decide (c < bucket_start))
      let last_match_index := partitionPoint counts (fun c => decide (c < bucket_end))
      { count := last_match_index - first_match_index
        start := bucket_start
        stop := bucket_end })

/-- `AnalyzerResult` from `analyzer.rs` lines 125-130. -/
inductive AnalyzerResult where
  | NodeCount (n : ℕ)
  | Histogram (buckets : List HistogramBucket)
deriving DecidableEq

/-- Model of Rust `Vec::sort` (ascending): both analyzers sort the collected
per-node point counts before histogramming (`analyzer.rs` lines 218, 335).
Modelled with insertion sort, which computes the same ascending permutation
as Rust's stable sort. -/
def sortAscending (l : List ℕ) : List ℕ := l.insertionSort (· ≤ ·)

/-- The dispatch on `HistogramConfig` shared by both analyzers
(`analyzer.rs` lines 220-227 and 337-344): linear or logarithmic bucketing
of the sorted per-node point counts. -/
noncomputable def histogram_for (cfg : HistogramConfig) (counts : List ℕ) : List HistogramBucket :=
  match cfg with
  | HistogramConfig.Linear buckets => lin_histogram counts buckets
  | HistogramConfig.Logarithmic buckets => log_histogram counts buckets

/-- The validity test of `PotreeV2FormatAnalyzer::run` (`analyzer.rs` line
316): a record is kept when `bytes[idx * 22] != 2 || bytes[idx * 22 + 1] ==
0`, here expressed on the two inspected bytes. -/
def is_valid_node (tag flag : ℕ) : Bool := tag != 2 || flag == 0

/-- The `valid_node_indices` computation of `PotreeV2FormatAnalyzer::run`
(`analyzer.rs` lines 314-317): indices of the 22-byte records whose bytes at
offsets 0 and 1 pass `is_valid_node`.  The byte buffer is a `List ℕ` (each
entry a byte value); out-of-range access is modelled with `getD _ 0`, which
agrees with the source whenever the buffer length is a multiple of 22. -/
def valid_node_indices (bytes : List ℕ) : List ℕ :=
  (List.range (bytes.length / 22)).filter
    (fun idx => is_valid_node (bytes.getD (idx * 22) 0) (bytes.getD (idx * 22 + 1) 0))

/-- The point-count extraction of `PotreeV2FormatAnalyzer::run`
(`analyzer.rs` lines 326-333): `u32::from_le_bytes` of the four bytes at
offsets 2..5 of record `idx`, as a natural number (byte values < 256, so no
truncation occurs). -/
def point_count_of_node (bytes : List ℕ) (idx : ℕ) : ℕ :=
  bytes.getD (idx * 22 + 2) 0 + 256 * bytes.getD (idx * 22 + 3) 0 +
    256 ^ 2 * bytes.getD (idx * 22 + 4) 0 + 256 ^ 3 * bytes.getD (idx * 22 + 5) 0

/-- `PotreeV2FormatAnalyzer::run` from `analyzer.rs` lines 292-350, with the
already-read contents of `hierarchy.bin` passed as `bytes` (file I/O is the
external part; everything after `read_to_end` is mirrored).  Returns the
result list or the error message built by the source's `anyhow!` calls. -/
noncomputable def potree_run (count_nodes : Bool) (histogram_config : Option HistogramConfig)
    (bytes : List ℕ) : Except String (List AnalyzerResult) :=
  if !count_nodes && histogram_config.isNone then Except.ok []
  else if bytes.length % 22 ≠ 0 then
    Except.error "File size of hierarchy.bin must be a multiple of 22!"
  else
    let valid := valid_node_indices bytes
    let res1 := if count_nodes then [AnalyzerResult.NodeCount valid.length] else []
    match histogram_config with
    | none => Except.ok res1
    | some cfg =>
      let points_per_node := sortAscending (valid.map (point_count_of_node bytes))
      Except.ok (res1 ++ [AnalyzerResult.Histogram (histogram_for cfg points_per_node)])

/-- A filesystem entry as produced by the `WalkDir` enumeration in
`MultiFileAnalyzer::new` (`analyzer.rs` lines 176-181): its path's extension
(`Path::extension`) and whether the entry is a regular file.  `WalkDir`
yields directories as well as files, so `isFile` may be `false`. -/
structure FsEntry where
  ext : Option String
  isFile : Bool
deriving DecidableEq

/-- `MultiFileAnalyzer::is_supported_format` from `analyzer.rs` lines
190-195: the extension exists and equals `las` or `laz`.  Nothing else about
the entry is inspected. -/
def is_supported_format (e : FsEntry) : Bool :=
  match e.ext with
  | some extension => extension == "las" || extension == "laz"
  | none => false

/-- The eager file enumeration of `MultiFileAnalyzer::new` (`analyzer.rs`
lines 176-181): keep exactly the walked entries passing
`is_supported_format`. -/
def multi_file_analyzer_files (entries : List FsEntry) : List FsEntry :=
  entries.filter is_supported_format

/-- `MultiFileAnalyzer::run` together with `calculate_histogram` from
`analyzer.rs` lines 197-257.  The las-header read (`Reader::from_path` /
`header.number_of_points()`) is the external collaborator and is passed in
as `read_point_count`; the parallel fold over files is modelled by the
order-independent sequential `mapM` (the collected counts are sorted before
histogramming, and the first error fails the whole run, as in the source). -/
noncomputable def multi_file_run (files : List FsEntry) (count_nodes : Bool)
    (histogram_config : Option HistogramConfig)
    (read_point_count : FsEntry → Except String ℕ) : Except String (List AnalyzerResult) :=
  if files.isEmpty then
    Except.error "Found zero files to analyze! Make sure the target directory is not empty!"
  else
    let res1 := if count_nodes then [AnalyzerResult.NodeCount files.length] else []
    match histogram_config with
    | none => Except.ok res1
    | some cfg =>
      match files.mapM read_point_count with
      | Except.error e => Except.error e
      | Except.ok counts =>
        let num_points_per_node := sortAscending counts
        Except.ok (res1 ++ [AnalyzerResult.Histogram (histogram_for cfg num_points_per_node)])

/-- `ProgressUpdateCondition` from `progress.rs` lines 5-10. -/
inductive ProgressUpdateCondition where
  | OnPercentageChanged (step : ℚ)
  | OnProgressChanged (step : ℚ)

/-- `ProgressTracker` from `progress.rs` lines 14-19.  `f64` progress values
are modelled as `ℚ`; `Instant` timestamps are modelled as `ℚ` seconds and
threaded explicitly through the operations (front of `last_n_progresses` is
the oldest sample, back the newest, as in the `VecDeque`). -/
structure ProgressTracker where
  current_progress : ℚ
  target_progress : ℚ
  update_condition : ProgressUpdateCondition
  last_n_progresses : List (ℚ × ℚ)

/-- `ProgressTracker::new` from `progress.rs` lines 24-34 (the
negative-target panic is captured by the `0 ≤ target_progress` hypotheses of
the theorems below). -/
def ProgressTracker.new (target_progress : ℚ)
    (update_condition : ProgressUpdateCondition) : ProgressTracker :=
  { current_progress := 0
    target_progress := target_progress
    update_condition := update_condition
    last_n_progresses := [] }

/-- The ring-buffer update of `calculate_throughput` (`progress.rs` lines
76-80): evict the oldest entry once 32 entries are held, then push the new
`(progress, timestamp)` sample at the back. -/
def push_sample (samples : List (ℚ × ℚ)) (new_progress now : ℚ) : List (ℚ × ℚ) :=
  (if samples.length = 32 then samples.drop 1 else samples) ++ [(new_progress, now)]

/-- The throughput estimate of `calculate_throughput` (`progress.rs` lines
82-91): `none` with fewer than 2 retained samples, otherwise
`(newest.progress - oldest.progress) / (newest.time - oldest.time)`. -/
def throughput_of (samples : List (ℚ × ℚ)) : Option ℚ :=
  if samples.length < 2 then none
  else
    some (((samples.getLastD (0, 0)).1 - (samples.headD (0, 0)).1) /
      ((samples.getLastD (0, 0)).2 - (samples.headD (0, 0)).2))

/-- Model of the Rust `as usize` cast applied to the `f64` step quotients in
`inc_progress` (`progress.rs` lines 59-60, 66-67): truncation toward zero,
saturating at 0 for negative values. -/
def stepsOf (x step : ℚ) : ℕ := (⌊x / step⌋).toNat

/-- The status line emitted by `print_progress` (`progress.rs` lines
94-106): the percentage, the throughput estimate it was handed, and the
estimated time remaining `(target - current) / throughput`, present exactly
when the throughput estimate is present. -/
structure StatusLine where
  percentage : ℚ
  throughput : Option ℚ
  etr : Option ℚ
deriving DecidableEq

/-- `print_progress` from `progress.rs` lines 94-106, returning the data of
the emitted line instead of writing to stderr. -/
def print_progress (t : ProgressTracker) (mean_throughput : Option ℚ) : StatusLine :=
  { percentage := 100 * t.current_progress / t.target_progress
    throughput := mean_throughput
    etr := mean_throughput.map (fun tp => (t.target_progress - t.current_progress) / tp) }

/-- `ProgressTracker::inc_progress` from `progress.rs` lines 36-73, with the
call-time `Instant::now()` passed as `now`; returns the updated tracker and
the emitted status line, if any.  The negative-increment panic is captured
by the `0 ≤ increment` hypotheses of the theorems below.  (The source's
`calculate_throughput(old_progress, new_progress)` ignores its
`old_progress` argument; here it is split into `push_sample` and
`throughput_of`.) -/
def inc_progress (t : ProgressTracker) (increment now : ℚ) :
    ProgressTracker × Option StatusLine :=
  if t.current_progress = t.target_progress then (t, none)
  else if t.target_progress ≤ t.current_progress + increment then
    let t1 : ProgressTracker := { t with
      current_progress := t.target_progress
      last_n_progresses := push_sample t.last_n_progresses t.target_progress now }
    (t1, some (print_progress t1 (throughput_of t1.last_n_progresses)))
  else
    let old_progress := t.current_progress
    let t1 : ProgressTracker := { t with
      current_progress := old_progress + increment
      last_n_progresses := push_sample t.last_n_progresses (old_progress + increment) now }
    let mean_throughput := throughput_of t1.last_n_progresses
    match t.update_condition with
    | ProgressUpdateCondition.OnPercentageChanged percentage_step =>
      if stepsOf (old_progress / t.target_progress) percentage_step <
          stepsOf (t1.current_progress / t.target_progress) percentage_step then
        (t1, some (print_progress t1 mean_throughput))
      else (t1, none)
    | ProgressUpdateCondition.OnProgressChanged progress_step =>
      if stepsOf old_progress progress_step < stepsOf t1.current_progress progress_step then
        (t1, some (print_progress t1 mean_throughput))
      else (t1, none)

/-- A sequence of `inc_progress` calls: fold over a list of
`(increment, timestamp)` pairs, collecting every emitted status line. -/
def runTracker (t : ProgressTracker) (steps : List (ℚ × ℚ)) :
    ProgressTracker × List StatusLine :=
  match steps with
  | [] => (t, [])
  | (increment, now) :: rest =>
    let r := inc_progress t increment now
    let r' := runTracker r.1 rest
    (r'.1, r.2.toList ++ r'.2)

/-! Helper lemmas about `partitionPoint` on sorted lists. -/

theorem takeWhile_length_mono {p q : ℕ → Bool} (h : ∀ x, p x = true → q x = true) :
    ∀ l : List ℕ, (l.takeWhile p).length ≤ (l.takeWhile q).length := by
  intro l
  induction l with
  | nil => simp
  | cons x xs ih =>
    by_cases hp : p x = true
    · rw [List.takeWhile_cons_of_pos hp, List.takeWhile_cons_of_pos (h x hp)]
      simpa using ih
    · simp [List.takeWhile_cons_of_neg hp]

theorem partitionPoint_lt_mono (l : List ℕ) {b b' : ℕ} (h : b ≤ b') :
    partitionPoint l (fun c => decide (c < b)) ≤ partitionPoint l (fun c => decide (c < b')) := by
  refine takeWhile_length_mono (fun x hx => ?_) l
  simp only [decide_eq_true_eq] at hx ⊢
  omega

theorem partitionPoint_lt_zero (l : List ℕ) :
    partitionPoint l (fun c => decide (c < 0)) = 0 := by
  unfold partitionPoint
  induction l with
  | nil => simp
  | cons x xs ih => simp [List.takeWhile_cons_of_neg]

theorem partitionPoint_all (l : List ℕ) (b : ℕ) (h : ∀ x ∈ l, x < b) :
    partitionPoint l (fun c => decide (c < b)) = l.length := by
  unfold partitionPoint
  rw [List.takeWhile_eq_self_iff.mpr]
  intro x hx
  simpa using h x hx

theorem partitionPoint_sorted_eq_countP {l : List ℕ} (hs : l.Sorted (· ≤ ·)) (b : ℕ) :
    partitionPoint l (fun c => decide (c < b)) = l.countP (fun c => decide (c < b)) := by
  unfold partitionPoint
  induction l with
  | nil => simp
  | cons x xs ih =>
    have hs' : xs.Sorted (· ≤ ·) := hs.of_cons
    have hle : ∀ y ∈ xs, x ≤ y := fun y hy => (List.sorted_cons.mp hs).1 y hy
    by_cases hx : x < b
    · rw [List.takeWhile_cons_of_pos (by simpa using hx), List.countP_cons_of_pos _ _ (by simpa using hx)]
      simp [ih hs']
    · rw [List.takeWhile_cons_of_neg (by simpa using hx), List.countP_cons_of_neg _ _ (by simpa using hx)]
      have : xs.countP (fun c => decide (c < b)) = 0 := by
        rw [List.countP_eq_zero]
        intro y hy
        have := hle y hy
        simp only [decide_eq_true_eq]
        omega
      simp [this]

theorem sorted_le_of_getLast?_eq :
    ∀ {l : List ℕ} {m : ℕ}, l.Sorted (· ≤ ·) → l.getLast? = some m → ∀ x ∈ l, x ≤ m := by
  intro l
  induction l with
  | nil => intro m _ hm; simp at hm
  | cons y ys ih =>
    intro m hs hm x hx
    cases ys with
    | nil =>
      simp at hm hx
      omega
    | cons z zs =>
      rw [List.getLast?_cons_cons] at hm
      rcases List.mem_cons.mp hx with rfl | hx'
      · have hzm : z ≤ m := ih (hs.of_cons) hm z (List.mem_cons_self _ _)
        have hxz : x ≤ z := (List.sorted_cons.mp hs).1 z (List.mem_cons_self _ _)
        omega
      · exact ih (hs.of_cons) hm x hx'

/-- A telescoping sum of monotone `ℕ`-valued differences over `List.range`. -/
theorem sum_map_range_sub (f : ℕ → ℕ) (hf : Monotone f) :
    ∀ n : ℕ, ((List.range n).map (fun i => f (i + 1) - f i)).sum = f n - f 0 := by
  intro n
  induction n with
  | zero => simp
  | succ k ih =>
    rw [List.range_succ, List.map_append, List.sum_append, ih]
    have h1 : f 0 ≤ f k := hf (Nat.zero_le k)
    have h2 : f k ≤ f (k + 1) := hf (Nat.le_succ k)
    simp
    omega

/-- Contiguity transfer: a list built by mapping over `List.range` is
`Chain'`-related whenever adjacent images are. -/
theorem chain'_map_range {α : Type} (R : α → α → Prop) (g : ℕ → α) (n : ℕ)
    (h : ∀ i, R (g i) (g (i + 1))) : List.Chain' R ((List.range n).map g) := by
  rw [List.chain'_map]
  induction n with
  | zero => simp
  | succ k ih =>
    rw [List.range_succ]
    apply List.Chain'.append ih (by simp)
    intro x hx y hy
    simp only [List.head?_cons, Option.mem_def, Option.some.injEq] at hy
    subst hy
    rcases k with _ | k
    · simp at hx
    · rw [List.getLast?_range] at hx
      simp only [Option.mem_def, if_neg (Nat.succ_ne_zero k), Option.some.injEq,
        Nat.add_sub_cancel] at hx
      subst hx
      exact h k

/-! Helper lemmas about the bucket boundary formulas. -/

theorem rustRoundQ_mono {x y : ℚ} (h : x ≤ y) : rustRoundQ x ≤ rustRoundQ y := by
  unfold rustRoundQ
  exact Int.toNat_le_toNat (Int.floor_mono (by linarith))

theorem rustRoundQ_natCast (m : ℕ) : rustRoundQ (m : ℚ) = m := by
  unfold rustRoundQ
  have : ⌊(m : ℚ) + 1/2⌋ = (m : ℤ) := by
    rw [Int.floor_eq_iff]
    constructor
    · push_cast; linarith
    · push_cast; linarith
  rw [this]
  exact Int.toNat_natCast m

theorem lin_bucket_bound_zero (m n : ℕ) : lin_bucket_bound m n 0 = 0 := by
  unfold lin_bucket_bound
  norm_num
  exact rustRoundQ_natCast 0

theorem lin_bucket_bound_self (m n : ℕ) (hn : 0 < n) : lin_bucket_bound m n n = m := by
  unfold lin_bucket_bound
  rw [div_self (by exact_mod_cast hn.ne' : (n : ℚ) ≠ 0), mul_one]
  exact rustRoundQ_natCast m

theorem lin_bucket_bound_mono (m n : ℕ) : Monotone (lin_bucket_bound m n) := by
  intro j k hjk
  unfold lin_bucket_bound
  apply rustRoundQ_mono
  rcases Nat.eq_zero_or_pos n with hn | hn
  · simp [hn]
  · have hj : (j : ℚ) ≤ k := by exact_mod_cast hjk
    gcongr

theorem rustRoundR_mono {x y : ℝ} (h : x ≤ y) : rustRoundR x ≤ rustRoundR y := by
  unfold rustRoundR
  exact Int.toNat_le_toNat (Int.floor_mono (by linarith))

theorem rustRoundR_natCast (m : ℕ) : rustRoundR (m : ℝ) = m := by
  unfold rustRoundR
  have : ⌊(m : ℝ) + 1/2⌋ = (m : ℤ) := by
    rw [Int.floor_eq_iff]
    constructor
    · push_cast; linarith
    · push_cast; linarith
  rw [this]
  exact Int.toNat_natCast m

theorem log_bucket_bound_zero (m n : ℕ) : log_bucket_bound m n 0 = 1 := by
  unfold log_bucket_bound
  norm_num
  exact_mod_cast rustRoundR_natCast 1

theorem log_bucket_bound_self (m n : ℕ) (hn : 0 < n) : log_bucket_bound m n n = m + 1 := by
  unfold log_bucket_bound
  rw [div_self (by exact_mod_cast hn.ne' : (n : ℝ) ≠ 0), mul_one,
    Real.rpow_logb (by norm_num) (by norm_num) (by positivity)]
  have : (1 : ℝ) + m = ((m + 1 : ℕ) : ℝ) := by push_cast; ring
  rw [this, rustRoundR_natCast]

theorem log_bucket_bound_mono (m n : ℕ) (hn : 0 < n) : Monotone (log_bucket_bound m n) := by
  intro j k hjk
  unfold log_bucket_bound
  apply rustRoundR_mono
  apply Real.rpow_le_rpow_of_exponent_le (by norm_num)
  have hlog : (0 : ℝ) ≤ Real.logb 2 (1 + m) := by
    apply Real.logb_nonneg (by norm_num)
    have : (0 : ℝ) ≤ m := by positivity
    linarith
  apply mul_le_mul_of_nonneg_left ?_ hlog
  have hj : (j : ℝ) ≤ k := by exact_mod_cast hjk
  gcongr

/-- Unfolded form of `lin_histogram` for nonempty `counts`. -/
theorem lin_histogram_eq_map (counts : List ℕ) (num_buckets last_count : ℕ)
    (h : counts.getLast? = some last_count) :
    lin_histogram counts num_buckets = (List.range num_buckets).map (fun bucket_index =>
      { count := partitionPoint counts
            (fun c => decide (c < lin_bucket_bound (last_count + 1) num_buckets (bucket_index + 1))) -
          partitionPoint counts
            (fun c => decide (c < lin_bucket_bound (last_count + 1) num_buckets bucket_index))
        start := lin_bucket_bound (last_count + 1) num_buckets bucket_index
        stop := lin_bucket_bound (last_count + 1) num_buckets (bucket_index + 1) }) := by
  simp only [lin_histogram, h]

/-- Unfolded form of `log_histogram` for nonempty `counts`. -/
theorem log_histogram_eq_map (counts : List ℕ) (num_buckets max_points : ℕ)
    (h : counts.getLast? = some max_points) :
    log_histogram counts num_buckets = (List.range num_buckets).map (fun bucket_index =>
      { count := partitionPoint counts
            (fun c => decide (c < log_bucket_bound max_points num_buckets (bucket_index + 1))) -
          partitionPoint counts
            (fun c => decide (c < log_bucket_bound max_points num_buckets bucket_index))
        start := log_bucket_bound max_points num_buckets bucket_index
        stop := log_bucket_bound max_points num_buckets (bucket_index + 1) }) := by
  simp only [log_histogram, h]

/-- C3 counterexample: the claim quantifies over every ascending sequence,
but for the empty sequence `lin_histogram` returns no buckets at all
(`analyzer.rs` lines 59-62), not `bucket_count` buckets. -/
theorem lin_histogram_empty_counts_counterexample :
    (lin_histogram [] 1).length ≠ 1 := by decide

/-- C3 (amended): for every NONEMPTY ascending sequence `counts` and every
`bucket_count > 0`, `lin_histogram` returns exactly `bucket_count` buckets,
adjacent buckets are contiguous (`stop = start` of the next), the first
bucket starts at 0, and the bucket counts sum to `counts.length`. -/
theorem lin_histogram_spec (counts : List ℕ) (num_buckets : ℕ) (hne : counts ≠ [])
    (hs : counts.Sorted (· ≤ ·)) (hn : 0 < num_buckets) :
    (lin_histogram counts num_buckets).length = num_buckets ∧
    List.Chain' (fun a b => a.stop = b.start) (lin_histogram counts num_buckets) ∧
    (∀ b ∈ (lin_histogram counts num_buckets).head?, b.start = 0) ∧
    ((lin_histogram counts num_buckets).map HistogramBucket.count).sum = counts.length := by
  obtain ⟨last_count, hlc⟩ : ∃ lc, counts.getLast? = some lc :=
    ⟨counts.getLast hne, List.getLast?_eq_getLast counts hne⟩
  rw [lin_histogram_eq_map counts num_buckets last_count hlc]
  refine ⟨by simp, chain'_map_range _ _ _ (fun i => rfl), ?_, ?_⟩
  · rcases num_buckets with _ | k
    · omega
    · rw [List.range_succ_eq_map]
      simp [lin_bucket_bound_zero]
  · rw [List.map_map]
    have hmono : Monotone (fun j => partitionPoint counts
        (fun c => decide (c < lin_bucket_bound (last_count + 1) num_buckets j))) :=
      fun j k hjk => partitionPoint_lt_mono counts (lin_bucket_bound_mono _ _ hjk)
    have hsum : ((List.range num_buckets).map
        (HistogramBucket.count ∘ fun bucket_index =>
          { count := partitionPoint counts
                (fun c => decide (c < lin_bucket_bound (last_count + 1) num_buckets (bucket_index + 1))) -
              partitionPoint counts
                (fun c => decide (c < lin_bucket_bound (last_count + 1) num_buckets bucket_index))
            start := lin_bucket_bound (last_count + 1) num_buckets bucket_index
            stop := lin_bucket_bound (last_count + 1) num_buckets (bucket_index + 1) })).sum =
        partitionPoint counts
            (fun c => decide (c < lin_bucket_bound (last_count + 1) num_buckets num_buckets)) -
          partitionPoint counts
            (fun c => decide (c < lin_bucket_bound (last_count + 1) num_buckets 0)) :=
      sum_map_range_sub _ hmono num_buckets
    rw [hsum]
    have hall : ∀ x ∈ counts, x < last_count + 1 := by
      intro x hx
      have := sorted_le_of_getLast?_eq hs hlc x hx
      omega
    simp only [lin_bucket_bound_zero, lin_bucket_bound_self _ _ hn, partitionPoint_lt_zero,
      partitionPoint_all counts _ hall]
    omega

/-- C1 counterexample: for `counts = [0]` and one bucket, the single
logarithmic bucket is `[1, 1)` (the first boundary is `round(2^0) = 1`), so
the element 0 is not counted in any bucket and the bucket counts sum to 0,
not to `counts.len() = 1`. -/
theorem log_histogram_sum_counterexample :
    ((log_histogram [0] 1).map HistogramBucket.count).sum ≠ ([0] : List ℕ).length := by
  rw [log_histogram_eq_map [0] 1 0 rfl]
  simp [List.range_succ, log_bucket_bound_zero, log_bucket_bound_self 0 1 Nat.one_pos,
    partitionPoint]

/-- C1 (amended): for every ascending sequence `counts` and every
`bucket_count > 0`, the logarithmic-mode buckets are contiguous (each
bucket's `stop` equals the next bucket's `start`) and the bucket counts sum
to the number of NONZERO elements of `counts` — which equals `counts.len()`
exactly when no count is 0, since elements equal to 0 fall below the first
bucket boundary `round(2^0) = 1`. -/
theorem log_histogram_spec (counts : List ℕ) (num_buckets : ℕ)
    (hs : counts.Sorted (· ≤ ·)) (hn : 0 < num_buckets) :
    List.Chain' (fun a b => a.stop = b.start) (log_histogram counts num_buckets) ∧
    ((log_histogram counts num_buckets).map HistogramBucket.count).sum =
      counts.countP (fun c => decide (0 < c)) := by
  cases hlc : counts.getLast? with
  | none =>
    have hnil : counts = [] := List.getLast?_eq_none_iff.mp hlc
    subst hnil
    exact ⟨List.chain'_nil, rfl⟩
  | some max_points =>
    rw [log_histogram_eq_map counts num_buckets max_points hlc]
    refine ⟨chain'_map_range _ _ _ (fun i => rfl), ?_⟩
    rw [List.map_map]
    have hmono : Monotone (fun j => partitionPoint counts
        (fun c => decide (c < log_bucket_bound max_points num_buckets j))) :=
      fun j k hjk => partitionPoint_lt_mono counts (log_bucket_bound_mono _ _ hn hjk)
    have hsum : ((List.range num_buckets).map
        (HistogramBucket.count ∘ fun bucket_index =>
          { count := partitionPoint counts
                (fun c => decide (c < log_bucket_bound max_points num_buckets (bucket_index + 1))) -
              partitionPoint counts
                (fun c => decide (c < log_bucket_bound max_points num_buckets bucket_index))
            start := log_bucket_bound max_points num_buckets bucket_index
            stop := log_bucket_bound max_points num_buckets (bucket_index + 1) })).sum =
        partitionPoint counts
            (fun c => decide (c < log_bucket_bound max_points num_buckets num_buckets)) -
          partitionPoint counts
            (fun c => decide (c < log_bucket_bound max_points num_buckets 0)) :=
      sum_map_range_sub _ hmono num_buckets
    rw [hsum]
    have hall : ∀ x ∈ counts, x < max_points + 1 := by
      intro x hx
      have := sorted_le_of_getLast?_eq hs hlc x hx
      omega
    simp only [log_bucket_bound_zero, log_bucket_bound_self _ _ hn,
      partitionPoint_all counts _ hall, partitionPoint_sorted_eq_countP hs]
    have hlen := List.length_eq_countP_add_countP (fun c => decide (c < 1)) counts
    have hcongr : counts.countP (fun a => decide ¬(decide (a < 1) = true)) =
        counts.countP (fun c => decide (0 < c)) := by
      apply List.countP_congr
      intro x _
      rcases Nat.eq_zero_or_pos x with rfl | hx
      · simp
      · simp [Nat.lt_one_iff, hx, hx.ne']
    omega

/-- C9: building either histogram over the empty sequence of counts returns
the empty bucket sequence for every bucket count, and building either
histogram with `bucket_count = 0` over any nonempty sorted sequence also
returns the empty bucket sequence. -/
theorem histogram_empty_and_zero_buckets :
    (∀ num_buckets : ℕ,
      log_histogram [] num_buckets = [] ∧ lin_histogram [] num_buckets = []) ∧
    (∀ counts : List ℕ, counts ≠ [] → counts.Sorted (· ≤ ·) →
      log_histogram counts 0 = [] ∧ lin_histogram counts 0 = []) := by
  constructor
  · intro num_buckets
    exact ⟨rfl, rfl⟩
  · intro counts hne _
    obtain ⟨last_count, hlc⟩ : ∃ lc, counts.getLast? = some lc :=
      ⟨counts.getLast hne, List.getLast?_eq_getLast counts hne⟩
    rw [lin_histogram_eq_map counts 0 last_count hlc, log_histogram_eq_map counts 0 last_count hlc]
    simp

/-- Witness for `lin_histogram_spec` at `counts = [1, 2]`, two buckets. -/
theorem lin_histogram_spec_witness :
    ((lin_histogram [1, 2] 2).map HistogramBucket.count).sum = ([1, 2] : List ℕ).length :=
  (lin_histogram_spec [1, 2] 2 (by decide) (by decide) (by decide)).2.2.2

/-- Witness for `log_histogram_spec` at `counts = [1, 2]`, two buckets. -/
theorem log_histogram_spec_witness :
    ((log_histogram [1, 2] 2).map HistogramBucket.count).sum =
      ([1, 2] : List ℕ).countP (fun c => decide (0 < c)) :=
  (log_histogram_spec [1, 2] 2 (by decide) (by decide)).2

/-- Witness for `histogram_empty_and_zero_buckets` at `counts = [5]`. -/
theorem histogram_empty_and_zero_buckets_witness : lin_histogram [5] 0 = [] :=
  (histogram_empty_and_zero_buckets.2 [5] (by decide) (by decide)).2

/-- C2: a packed-hierarchy record is counted as valid iff not (tag byte = 2
and flag byte ≠ 0); tag 2 / flag 0 is valid, tag 2 / flag 5 is invalid, any
tag other than 2 is valid regardless of flag; the node-count result equals
the number of valid records, and only valid records contribute their
little-endian point count (bytes 2-5) to the histogram input. -/
theorem potree_validity_spec :
    (∀ tag flag : ℕ, is_valid_node tag flag = true ↔ ¬(tag = 2 ∧ flag ≠ 0)) ∧
    is_valid_node 2 0 = true ∧
    is_valid_node 2 5 = false ∧
    (∀ tag flag : ℕ, tag ≠ 2 → is_valid_node tag flag = true) ∧
    (∀ (bytes : List ℕ) (idx : ℕ),
      idx ∈ valid_node_indices bytes ↔
        idx < bytes.length / 22 ∧
          ¬(bytes.getD (idx * 22) 0 = 2 ∧ bytes.getD (idx * 22 + 1) 0 ≠ 0)) ∧
    (∀ (bytes : List ℕ) (cfg : HistogramConfig), bytes.length % 22 = 0 →
      potree_run true (some cfg) bytes =
        Except.ok [AnalyzerResult.NodeCount (valid_node_indices bytes).length,
          AnalyzerResult.Histogram (histogram_for cfg
            (sortAscending ((valid_node_indices bytes).map (point_count_of_node bytes))))]) := by
  refine ⟨?_, rfl, rfl, ?_, ?_, ?_⟩
  · intro tag flag
    simp only [is_valid_node, Bool.or_eq_true, bne_iff_ne, beq_iff_eq]
    tauto
  · intro tag flag htag
    simp [is_valid_node, htag]
  · intro bytes idx
    simp only [valid_node_indices, List.mem_filter, List.mem_range, is_valid_node,
      Bool.or_eq_true, bne_iff_ne, beq_iff_eq]
    tauto
  · intro bytes cfg hlen
    simp [potree_run, hlen]

/-- Witness for `potree_validity_spec`: the final conjunct applied to the
spec's 44-byte example buffer of two valid records with point counts 10 and
20, with a 1-bucket linear histogram. -/
theorem potree_validity_spec_witness :
    potree_run true (some (HistogramConfig.Linear 1))
        (([0, 0, 10, 0, 0, 0] ++ List.replicate 16 0) ++
          ([0, 0, 20, 0, 0, 0] ++ List.replicate 16 0)) =
      Except.ok [AnalyzerResult.NodeCount (valid_node_indices
          (([0, 0, 10, 0, 0, 0] ++ List.replicate 16 0) ++
            ([0, 0, 20, 0, 0, 0] ++ List.replicate 16 0))).length,
        AnalyzerResult.Histogram (histogram_for (HistogramConfig.Linear 1)
          (sortAscending ((valid_node_indices
              (([0, 0, 10, 0, 0, 0] ++ List.replicate 16 0) ++
                ([0, 0, 20, 0, 0, 0] ++ List.replicate 16 0))).map
            (point_count_of_node
              (([0, 0, 10, 0, 0, 0] ++ List.replicate 16 0) ++
                ([0, 0, 20, 0, 0, 0] ++ List.replicate 16 0))))))] :=
  potree_validity_spec.2.2.2.2.2 _ (HistogramConfig.Linear 1) (by decide)

/-- C6: with node counting or a histogram requested, a hierarchy buffer
whose length is not a multiple of 22 makes `PotreeV2FormatAnalyzer::run`
fail with the format error naming 22, producing no results. -/
theorem potree_run_size_error (count_nodes : Bool) (cfg : Option HistogramConfig)
    (bytes : List ℕ) (hreq : count_nodes = true ∨ cfg ≠ none)
    (hlen : bytes.length % 22 ≠ 0) :
    potree_run count_nodes cfg bytes =
      Except.error "File size of hierarchy.bin must be a multiple of 22!" := by
  have h1 : (!count_nodes && cfg.isNone) = false := by
    rcases hreq with h | h
    · simp [h]
    · simp only [Bool.and_eq_false_iff, Option.isNone_eq_false_iff, Option.isSome_iff_ne_none]
      exact Or.inr h
  simp [potree_run, h1, hlen]

/-- Witness for `potree_run_size_error` at a 23-byte buffer. -/
theorem potree_run_size_error_witness :
    potree_run true none (List.replicate 23 0) =
      Except.error "File size of hierarchy.bin must be a multiple of 22!" :=
  potree_run_size_error true none (List.replicate 23 0) (Or.inl rfl) (by decide)

/-- C10: a 0-byte hierarchy file passes the multiple-of-22 validation (0 is
a multiple of 22) and `PotreeV2FormatAnalyzer::run` succeeds: node counting
yields `NodeCount 0` and a requested histogram yields an empty bucket
sequence, with no empty-dataset error. -/
theorem potree_run_empty_file (cfg : HistogramConfig) :
    potree_run true none [] = Except.ok [AnalyzerResult.NodeCount 0] ∧
    potree_run true (some cfg) [] =
      Except.ok [AnalyzerResult.NodeCount 0, AnalyzerResult.Histogram []] ∧
    potree_run false (some cfg) [] = Except.ok [AnalyzerResult.Histogram []] := by
  refine ⟨rfl, ?_, ?_⟩ <;> cases cfg <;> rfl

/-- C7: when the eager enumeration retained zero matching files,
`MultiFileAnalyzer::run` fails with the empty-dataset error regardless of
which statistics were requested. -/
theorem multi_file_run_empty_error (entries : List FsEntry) (count_nodes : Bool)
    (cfg : Option HistogramConfig) (read_point_count : FsEntry → Except String ℕ)
    (h : ∀ e ∈ entries, is_supported_format e = false) :
    multi_file_run (multi_file_analyzer_files entries) count_nodes cfg read_point_count =
      Except.error "Found zero files to analyze! Make sure the target directory is not empty!" := by
  have hnil : multi_file_analyzer_files entries = [] := by
    unfold multi_file_analyzer_files
    rw [List.filter_eq_nil_iff]
    intro a ha
    simp [h a ha]
  rw [hnil]
  rfl

/-- Witness for `multi_file_run_empty_error`: a directory with one non-las
entry. -/
theorem multi_file_run_empty_error_witness :
    multi_file_run (multi_file_analyzer_files [{ ext := some "txt", isFile := true }]) true none
        (fun _ => Except.ok 0) =
      Except.error "Found zero files to analyze! Make sure the target directory is not empty!" :=
  multi_file_run_empty_error [{ ext := some "txt", isFile := true }] true none
    (fun _ => Except.ok 0) (by decide)

/-- C8 counterexample: the enumeration filter of `MultiFileAnalyzer::new`
checks only the path extension, never the file type, so a DIRECTORY named
`*.las` is retained, contradicting the claim that only regular files are. -/
theorem multi_file_retention_counterexample :
    ¬ (∀ e ∈ multi_file_analyzer_files [{ ext := some "las", isFile := false }],
      e.isFile = true) := by
  decide

/-- C8 (amended): construction retains an entry if and only if its path
extension is `las` or `laz` — no regular-file check is performed, so
non-file entries with such extensions are retained too — and when any entry
is retained, the node count reported by `run` equals the number of retained
entries. -/
theorem multi_file_retention_spec :
    (∀ (entries : List FsEntry) (e : FsEntry),
      e ∈ multi_file_analyzer_files entries ↔
        e ∈ entries ∧ (e.ext = some "las" ∨ e.ext = some "laz")) ∧
    (∀ (entries : List FsEntry) (read_point_count : FsEntry → Except String ℕ),
      multi_file_analyzer_files entries ≠ [] →
      multi_file_run (multi_file_analyzer_files entries) true none read_point_count =
        Except.ok [AnalyzerResult.NodeCount (multi_file_analyzer_files entries).length]) := by
  constructor
  · intro entries e
    simp only [multi_file_analyzer_files, List.mem_filter, and_congr_right_iff]
    intro _
    unfold is_supported_format
    cases he : e.ext with
    | none => simp [he]
    | some s => simp [he]
  · intro entries read_point_count hne
    have hempty : (multi_file_analyzer_files entries).isEmpty = false := by
      simpa [List.isEmpty_iff] using hne
    simp [multi_file_run, hempty]

/-- Witness for `multi_file_retention_spec`: one retained `.las` entry gives
node count = number of retained entries. -/
theorem multi_file_retention_spec_witness :
    multi_file_run (multi_file_analyzer_files [{ ext := some "las", isFile := true }]) true none
        (fun _ => Except.ok 0) =
      Except.ok [AnalyzerResult.NodeCount
        (multi_file_analyzer_files [{ ext := some "las", isFile := true }]).length] :=
  multi_file_retention_spec.2 [{ ext := some "las", isFile := true }]
    (fun _ => Except.ok 0) (by decide)

/-! Helper lemmas about the progress tracker. -/

theorem inc_progress_fields (t : ProgressTracker) (inc now : ℚ) :
    (inc_progress t inc now).1.target_progress = t.target_progress ∧
    (inc_progress t inc now).1.update_condition = t.update_condition := by
  unfold inc_progress
  split_ifs with h1 h2
  · exact ⟨rfl, rfl⟩
  · exact ⟨rfl, rfl⟩
  · rcases hcond : t.update_condition with step | step <;> dsimp only <;> split_ifs <;>
      exact ⟨rfl, rfl⟩

theorem inc_progress_le_target (t : ProgressTracker) (inc now : ℚ)
    (h : t.current_progress ≤ t.target_progress) :
    (inc_progress t inc now).1.current_progress ≤ t.target_progress := by
  unfold inc_progress
  split_ifs with h1 h2
  · exact h
  · exact le_refl _
  · push_neg at h2
    rcases hcond : t.update_condition with step | step <;> dsimp only <;> split_ifs <;>
      simpa using le_of_lt h2

theorem stepsOf_le_of_le {a b s : ℚ} (ha : 0 ≤ a) (hb : 0 ≤ b) (hba : b ≤ a) :
    stepsOf b s ≤ stepsOf a s := by
  unfold stepsOf
  rcases lt_trichotomy s 0 with hs | rfl | hs
  · have h1 : a / s ≤ 0 := div_nonpos_of_nonneg_of_nonpos ha hs.le
    have h2 : b / s ≤ 0 := div_nonpos_of_nonneg_of_nonpos hb hs.le
    rw [Int.toNat_of_nonpos (Int.floor_nonpos h2), Int.toNat_of_nonpos (Int.floor_nonpos h1)]
  · simp
  · exact Int.toNat_le_toNat (Int.floor_mono (by gcongr))

theorem stepsOf_lt_imp_lt {a b s : ℚ} (ha : 0 ≤ a) (hb : 0 ≤ b)
    (h : stepsOf a s < stepsOf b s) : a < b := by
  by_contra hab
  push_neg at hab
  exact absurd h (not_lt.mpr (stepsOf_le_of_le ha hb hab))

theorem push_sample_subset {samples : List (ℚ × ℚ)} {new_progress now : ℚ} {s : ℚ × ℚ}
    (h : s ∈ push_sample samples new_progress now) : s ∈ samples ∨ s = (new_progress, now) := by
  unfold push_sample at h
  rcases List.mem_append.mp h with h' | h'
  · split_ifs at h' with hlen
    · exact Or.inl (List.drop_subset 1 samples h')
    · exact Or.inl h'
  · exact Or.inr (List.mem_singleton.mp h')

theorem throughput_of_concat_pos (pre : List (ℚ × ℚ)) (new_progress now cur : ℚ)
    (hmem : ∀ s ∈ pre, s.1 ≤ cur ∧ s.2 < now) (hlt : cur < new_progress) :
    ∀ v, throughput_of (pre ++ [(new_progress, now)]) = some v → 0 < v := by
  intro v hv
  unfold throughput_of at hv
  rcases Nat.lt_or_ge (pre ++ [(new_progress, now)]).length 2 with hlen | hlen
  · rw [if_pos hlen] at hv
    exact absurd hv (by simp)
  · rw [if_neg (Nat.not_lt.mpr hlen)] at hv
    cases pre with
    | nil => simp at hlen
    | cons a as =>
      have hhead : ((a :: as) ++ [(new_progress, now)]).headD (0, 0) = a := rfl
      have hlast : ((a :: as) ++ [(new_progress, now)]).getLastD (0, 0) = (new_progress, now) :=
        List.getLastD_concat _ _ _
      rw [hhead, hlast, Option.some_inj] at hv
      have ha := hmem a (List.mem_cons_self a as)
      have hnum : 0 < new_progress - a.1 := by
        have := ha.1
        linarith
      have hden : 0 < now - a.2 := by
        have := ha.2
        linarith
      rw [← hv]
      exact div_pos hnum hden

theorem throughput_of_push_pos (samples : List (ℚ × ℚ)) (new_progress now cur : ℚ)
    (hmem : ∀ s ∈ samples, s.1 ≤ cur ∧ s.2 < now) (hlt : cur < new_progress) :
    ∀ v, throughput_of (push_sample samples new_progress now) = some v → 0 < v := by
  unfold push_sample
  apply throughput_of_concat_pos _ _ _ cur ?_ hlt
  intro s hsmem
  split_ifs at hsmem
  · exact hmem s (List.drop_subset 1 samples hsmem)
  · exact hmem s hsmem

theorem inc_progress_line (t : ProgressTracker) (inc now : ℚ) (hinc : 0 ≤ inc)
    (hct : t.current_progress ≤ t.target_progress) (hc0 : 0 ≤ t.current_progress)
    (hs : ∀ s ∈ t.last_n_progresses, s.1 ≤ t.current_progress ∧ s.2 < now) :
    ∀ line, (inc_progress t inc now).2 = some line →
      (line.throughput = none → line.etr = none) ∧ (∀ v, line.throughput = some v → 0 < v) := by
  intro line hline
  unfold inc_progress at hline
  by_cases h1 : t.current_progress = t.target_progress
  · rw [if_pos h1] at hline
    exact absurd hline (by simp)
  · rw [if_neg h1] at hline
    have hcur_lt : t.current_progress < t.target_progress := lt_of_le_of_ne hct h1
    by_cases h2 : t.target_progress ≤ t.current_progress + inc
    · rw [if_pos h2] at hline
      dsimp only at hline
      rw [Option.some_inj] at hline
      subst hline
      refine ⟨fun hnone => by simp only [print_progress] at hnone ⊢; rw [hnone]; rfl, ?_⟩
      intro v hvv
      simp only [print_progress] at hvv
      exact throughput_of_push_pos t.last_n_progresses _ _ t.current_progress hs hcur_lt v hvv
    · rw [if_neg h2] at hline
      push_neg at h2
      have htp : 0 < t.target_progress := lt_of_le_of_lt hc0 hcur_lt
      rcases hcond : t.update_condition with step | step <;> rw [hcond] at hline <;>
        dsimp only at hline
      · by_cases hemit : stepsOf (t.current_progress / t.target_progress) step <
            stepsOf ((t.current_progress + inc) / t.target_progress) step
        · rw [if_pos hemit, Option.some_inj] at hline
          subst hline
          have ha : 0 ≤ t.current_progress / t.target_progress := div_nonneg hc0 htp.le
          have hb : 0 ≤ (t.current_progress + inc) / t.target_progress :=
            div_nonneg (by linarith) htp.le
          have hpct := stepsOf_lt_imp_lt ha hb hemit
          have hlt : t.current_progress < t.current_progress + inc :=
            (div_lt_div_iff_of_pos_right htp).mp hpct
          refine ⟨fun hnone => by simp only [print_progress] at hnone ⊢; rw [hnone]; rfl, ?_⟩
          intro v hvv
          simp only [print_progress] at hvv
          exact throughput_of_push_pos t.last_n_progresses _ _ t.current_progress hs hlt v hvv
        · rw [if_neg hemit] at hline
          exact absurd hline (by simp)
      · by_cases hemit : stepsOf t.current_progress step <
            stepsOf (t.current_progress + inc) step
        · rw [if_pos hemit, Option.some_inj] at hline
          subst hline
          have hlt : t.current_progress < t.current_progress + inc :=
            stepsOf_lt_imp_lt hc0 (by linarith) hemit
          refine ⟨fun hnone => by simp only [print_progress] at hnone ⊢; rw [hnone]; rfl, ?_⟩
          intro v hvv
          simp only [print_progress] at hvv
          exact throughput_of_push_pos t.last_n_progresses _ _ t.current_progress hs hlt v hvv
        · rw [if_neg hemit] at hline
          exact absurd hline (by simp)

theorem inc_progress_state (t : ProgressTracker) (inc now : ℚ) (hinc : 0 ≤ inc)
    (hct : t.current_progress ≤ t.target_progress) (hc0 : 0 ≤ t.current_progress)
    (hs : ∀ s ∈ t.last_n_progresses, s.1 ≤ t.current_progress) :
    (inc_progress t inc now).1.target_progress = t.target_progress ∧
    (inc_progress t inc now).1.current_progress ≤ t.target_progress ∧
    0 ≤ (inc_progress t inc now).1.current_progress ∧
    ∀ s ∈ (inc_progress t inc now).1.last_n_progresses,
      s.1 ≤ (inc_progress t inc now).1.current_progress ∧
        (s ∈ t.last_n_progresses ∨ s.2 = now) := by
  unfold inc_progress
  by_cases h1 : t.current_progress = t.target_progress
  · rw [if_pos h1]
    exact ⟨rfl, hct, hc0, fun s hsm => ⟨hs s hsm, Or.inl hsm⟩⟩
  · rw [if_neg h1]
    have hcur_lt : t.current_progress < t.target_progress := lt_of_le_of_ne hct h1
    by_cases h2 : t.target_progress ≤ t.current_progress + inc
    · rw [if_pos h2]
      refine ⟨rfl, le_refl _, by linarith, ?_⟩
      intro s hsm
      rcases push_sample_subset hsm with hold | hnew
      · exact ⟨le_of_lt (lt_of_le_of_lt (hs s hold) hcur_lt), Or.inl hold⟩
      · subst hnew
        exact ⟨le_refl _, Or.inr rfl⟩
    · rw [if_neg h2]
      push_neg at h2
      have hmem : ∀ s ∈ push_sample t.last_n_progresses (t.current_progress + inc) now,
          s.1 ≤ t.current_progress + inc ∧ (s ∈ t.last_n_progresses ∨ s.2 = now) := by
        intro s hsm
        rcases push_sample_subset hsm with hold | hnew
        · exact ⟨le_trans (hs s hold) (by linarith), Or.inl hold⟩
        · subst hnew
          exact ⟨le_refl _, Or.inr rfl⟩
      rcases hcond : t.update_condition with step | step <;> dsimp only <;> split_ifs <;>
        exact ⟨rfl, by dsimp only; linarith, by dsimp only; linarith, hmem⟩

theorem runTracker_lines_safe :
    ∀ (steps : List (ℚ × ℚ)) (t : ProgressTracker),
      (∀ p ∈ steps, 0 ≤ p.1) →
      (steps.map Prod.snd).Pairwise (· < ·) →
      t.current_progress ≤ t.target_progress →
      0 ≤ t.current_progress →
      (∀ s ∈ t.last_n_progresses, s.1 ≤ t.current_progress ∧ ∀ p ∈ steps, s.2 < p.2) →
      ∀ line ∈ (runTracker t steps).2,
        (line.throughput = none → line.etr = none) ∧ ∀ v, line.throughput = some v → 0 < v := by
  intro steps
  induction steps with
  | nil =>
    intro t _ _ _ _ _ line hline
    simp [runTracker] at hline
  | cons p rest ih =>
    obtain ⟨inc, now⟩ := p
    intro t hinc hpair hct hc0 hsamp line hline
    simp only [runTracker, List.mem_append] at hline
    obtain ⟨hnow_lt, htail⟩ : (∀ (b : ℚ) (a : ℚ), (a, b) ∈ rest → now < b) ∧
        (rest.map Prod.snd).Pairwise (· < ·) := by simpa using hpair
    rcases hline with hline | hline
    · rcases hopt : (inc_progress t inc now).2 with _ | l
      · rw [hopt] at hline
        simp at hline
      · rw [hopt] at hline
        simp only [Option.toList_some, List.mem_singleton] at hline
        subst hline
        exact inc_progress_line t inc now (hinc (inc, now) (List.mem_cons_self _ _)) hct hc0
          (fun s hsm => ⟨(hsamp s hsm).1, (hsamp s hsm).2 (inc, now) (List.mem_cons_self _ _)⟩)
          line hopt
    · have hstate := inc_progress_state t inc now (hinc (inc, now) (List.mem_cons_self _ _)) hct
        hc0 (fun s hsm => (hsamp s hsm).1)
      refine ih (inc_progress t inc now).1 (fun q hq => hinc q (List.mem_cons_of_mem _ hq))
        htail ?_ hstate.2.2.1 ?_ line hline
      · rw [hstate.1]
        exact hstate.2.1
      · intro s hsm
        refine ⟨(hstate.2.2.2 s hsm).1, ?_⟩
        intro q hq
        rcases (hstate.2.2.2 s hsm).2 with hold | hnow
        · exact (hsamp s hold).2 q (List.mem_cons_of_mem _ hq)
        · rw [hnow]
          exact hnow_lt q.2 q.1 (by rwa [Prod.mk.eta])

theorem runTracker_le_target :
    ∀ (steps : List (ℚ × ℚ)) (t : ProgressTracker),
      t.current_progress ≤ t.target_progress →
      (runTracker t steps).1.current_progress ≤ t.target_progress ∧
      (runTracker t steps).1.target_progress = t.target_progress := by
  intro steps
  induction steps with
  | nil =>
    intro t h
    exact ⟨h, rfl⟩
  | cons p rest ih =>
    obtain ⟨inc, now⟩ := p
    intro t h
    simp only [runTracker]
    have h1 := inc_progress_le_target t inc now h
    have h2 := (inc_progress_fields t inc now).1
    have h3 := ih (inc_progress t inc now).1 (by rw [h2]; exact h1)
    rw [h2] at h3
    exact h3

/-- C4: for a tracker created with non-negative target and any sequence of
`inc_progress` calls with non-negative increments, `current_progress` never
exceeds `target_progress`; a non-terminal call whose increment reaches the
target clamps `current_progress` to exactly `target_progress` and emits a
status line unconditionally; and once `current_progress` equals
`target_progress` every further call leaves the tracker unchanged and emits
nothing. -/
theorem progress_tracker_clamp_terminal_spec :
    (∀ (target : ℚ) (cond : ProgressUpdateCondition) (steps : List (ℚ × ℚ)),
      0 ≤ target → (∀ p ∈ steps, 0 ≤ p.1) →
      (runTracker (ProgressTracker.new target cond) steps).1.current_progress ≤ target) ∧
    (∀ (t : ProgressTracker) (increment now : ℚ),
      t.current_progress ≠ t.target_progress →
      t.target_progress ≤ t.current_progress + increment →
      (inc_progress t increment now).1.current_progress = t.target_progress ∧
        ((inc_progress t increment now).2).isSome = true) ∧
    (∀ (t : ProgressTracker) (increment now : ℚ),
      t.current_progress = t.target_progress →
      inc_progress t increment now = (t, none)) := by
  refine ⟨?_, ?_, ?_⟩
  · intro target cond steps htarget _
    exact (runTracker_le_target steps (ProgressTracker.new target cond) htarget).1
  · intro t increment now h1 h2
    unfold inc_progress
    rw [if_neg h1, if_pos h2]
    exact ⟨rfl, rfl⟩
  · intro t increment now h1
    unfold inc_progress
    rw [if_pos h1]

/-- Witness for `progress_tracker_clamp_terminal_spec`: a tracker at
progress 8 of 10 receiving increment 4 is clamped to exactly 10. -/
theorem progress_tracker_clamp_terminal_spec_witness :
    (inc_progress
        { current_progress := 8
          target_progress := 10
          update_condition := ProgressUpdateCondition.OnProgressChanged 5
          last_n_progresses := [] } 4 0).1.current_progress = 10 :=
  (progress_tracker_clamp_terminal_spec.2.1
    { current_progress := 8
      target_progress := 10
      update_condition := ProgressUpdateCondition.OnProgressChanged 5
      last_n_progresses := [] } 4 0 (by norm_num) (by norm_num)).1

/-- C5: starting from a freshly created tracker with non-negative target,
for any sequence of `inc_progress` calls with non-negative increments and
strictly increasing timestamps, every emitted status line omits the
estimated time remaining when the throughput is undefined (fewer than 2
retained samples) and when the throughput equals 0, and whenever an ETA is
present its throughput divisor is nonzero — so no division by zero occurs
in an emitted ETA.  (The zero-throughput case is in fact unreachable: every
emitted line's defined throughput is strictly positive.) -/
theorem progress_tracker_eta_safety (target : ℚ) (cond : ProgressUpdateCondition)
    (steps : List (ℚ × ℚ)) (htarget : 0 ≤ target)
    (hinc : ∀ p ∈ steps, 0 ≤ p.1)
    (htimes : (steps.map Prod.snd).Pairwise (· < ·)) :
    ∀ line ∈ (runTracker (ProgressTracker.new target cond) steps).2,
      (line.throughput = none → line.etr = none) ∧
      (line.throughput = some 0 → line.etr = none) ∧
      (∀ e, line.etr = some e → ∃ v, line.throughput = some v ∧ v ≠ 0) := by
  intro line hline
  have key := runTracker_lines_safe steps (ProgressTracker.new target cond) hinc htimes
    (by simpa [ProgressTracker.new] using htarget) (le_refl 0)
    (by simp [ProgressTracker.new]) line hline
  refine ⟨key.1, ?_, ?_⟩
  · intro h0
    exact absurd (key.2 0 h0) (lt_irrefl 0)
  · intro e he
    rcases hopt : line.throughput with _ | v
    · rw [key.1 hopt] at he
      exact absurd he (by simp)
    · exact ⟨v, rfl, (key.2 v hopt).ne'⟩

/-- Witness for `progress_tracker_eta_safety`: target 10, one increment of 12
at time 1 clamps and emits a line with a single retained sample, so its
throughput is undefined and its ETA is omitted. -/
theorem progress_tracker_eta_safety_witness :
    ({ percentage := 100, throughput := none, etr := none } : StatusLine).etr = none :=
  (progress_tracker_eta_safety 10 (ProgressUpdateCondition.OnProgressChanged 1000) [(12, 1)]
    (by norm_num) (by norm_num) (by norm_num)
    { percentage := 100, throughput := none, etr := none } (by
      norm_num [runTracker, inc_progress, push_sample, throughput_of, print_progress,
        ProgressTracker.new])).1 rfl
